import Mathlib

/-!
Verification of the leaky-splits / uniqueness core of `fiftyone-brain`.

The Python sources embedded here are
`fiftyone/brain/internal/core/leaky_splits.py` (split resolution, the
hash-bucket leak index, the dHash perceptual hash, the SKLearn-backed
similarity leak index) and `fiftyone/brain/uniqueness.py` (the weighted
k-NN uniqueness score).  External collaborators (the dataset/view
framework, the similarity backend, image decoding) are modelled by their
narrow interfaces: a dataset is a list of samples, a view is a list of
samples, the backend pipeline is an abstract function from threshold to
duplicates view, and file/image hashing is an abstract function from
filepath to fingerprint string.
-/

set_option maxRecDepth 4096

namespace FiftyoneBrain

/-- An externally-owned sample record: stable id, filepath, tag set, and
named fields (modelled as an association list). -/
structure Sample where
  id : String
  filepath : String
  tags : List String
  fields : List (String × String)
deriving DecidableEq, Repr

/-- Field access `s[field]` for the split-resolution code: first binding in
the association list, if any. -/
def Sample.getField (s : Sample) (field : String) : Option String :=
  (s.fields.find? (fun p => p.1 = field)).map Prod.snd

/-- `dataset.select(ids, ordered=True)`: view listing, in the order of
`ids`, the sample of the dataset carrying each id. -/
def selectOrdered (dataset : List Sample) (ids : List String) : List Sample :=
  ids.filterMap (fun i => dataset.find? (fun s => s.id = i))

/-- `dataset.select(ids)` without `ordered`: view of the dataset's samples
whose id is among `ids`, in dataset order. -/
def selectIds (dataset : List Sample) (ids : List String) : List Sample :=
  dataset.filter (fun s => ids.contains s.id)

/-- `samples.distinct(field)`: the distinct values the field takes over
the collection (absent values skipped; duplicate values collapsed, kept at
first occurrence). -/
def distinctField (samples : List Sample) (field : String) : List String :=
  (samples.filterMap (fun s => s.getField field)).dedup

/-- `samples.match(F(field) == val)`. -/
def matchField (samples : List Sample) (field val : String) : List Sample :=
  samples.filter (fun s => s.getField field = some val)

/-- `samples.match_tags([tag])`. -/
def matchTags (samples : List Sample) (tag : String) : List Sample :=
  samples.filter (fun s => s.tags.contains tag)

/-! ## Split resolution (`_to_views`, `_field_to_views`, `_tags_to_views`)

Errors raised by the Python code (`ValueError`; the spec's
configuration-error category) are modelled with `Except String`. -/

/-- `_field_to_views(samples, field)`: one view per distinct field value;
raises when the field has fewer than 2 distinct values. -/
def fieldToViews (samples : List Sample) (field : String) :
    Except String (List (List Sample)) :=
  let field_values := distinctField samples field
  if field_values.length < 2 then
    .error "field has less than 2 distinct values"
  else
    .ok (field_values.map (fun val => matchField samples field val))

/-- `_tags_to_views(samples, tags)`: one view per tag; raises when fewer
than 2 tags are supplied. -/
def tagsToViews (samples : List Sample) (tags : List String) :
    Except String (List (List Sample)) :=
  if tags.length < 2 then
    .error "Must provide at least two tags."
  else
    .ok (tags.map (fun tag => matchTags samples tag))

/-- Python truthiness of an optional list (`None` and `[]` are falsy). -/
def truthyList {α : Type} : Option (List α) → Bool
  | none => false
  | some l => !l.isEmpty

/-- Python truthiness of an optional string (`None` and `""` are falsy). -/
def truthyStr : Option String → Bool
  | none => false
  | some s => !s.isEmpty

/-- `int(x is not None)` applied to the three split arguments. -/
def numGiven {α β γ : Type} (sv : Option α) (sf : Option β) (st : Option γ) : Nat :=
  (if sv.isSome then 1 else 0) + (if sf.isSome then 1 else 0) +
    (if st.isSome then 1 else 0)

/-- `_to_views(samples, split_views, split_field, split_tags)`.  The Python
function implicitly returns `None` when every truthiness dispatch branch
fails, hence the `Option` in the success type. -/
def toViews (samples : List Sample) (split_views : Option (List (List Sample)))
    (split_field : Option String) (split_tags : Option (List String)) :
    Except String (Option (List (List Sample))) :=
  if numGiven split_views split_field split_tags = 0 then
    .error "One of the split arguments must be given."
  else if numGiven split_views split_field split_tags > 1 then
    .error "Only one of the split arguments must be given."
  else if truthyList split_views then
    .ok (some (split_views.getD []))
  else if truthyStr split_field then
    (fieldToViews samples (split_field.getD "")).map some
  else if truthyList split_tags then
    (tagsToViews samples (split_tags.getD [])).map some
  else
    .ok none

/-! ## Hash-bucket index (`LeakySplitsHashIndex`) -/

/-- One step of `self._hash2ids[hash].append(s["id"])` on an
insertion-ordered multimap (`defaultdict(list)`): append the id to the
bucket of the hash, creating the bucket at the end when absent. -/
def addToBucket (m : List (String × List String)) (h i : String) :
    List (String × List String) :=
  match m with
  | [] => [(h, [i])]
  | (k, ids) :: rest =>
      if k = h then (k, ids ++ [i]) :: rest
      else (k, ids) :: addToBucket rest h i

/-- `_compute_hashes`: iterate the samples, bucketing each sample's id by
the hash of its filepath (the hash function — `compute_filehash` or
`_image_hash` — is an external parameter here). -/
def buildBuckets (hashFn : String → String) (samples : List Sample) :
    List (String × List String) :=
  samples.foldl (fun m s => addToBucket m (hashFn s.filepath) s.id) []

/-- The hash index state after `__init__`: the `_hash2ids` buckets and the
`_dataset` handle. -/
structure HashIndex where
  hash2ids : List (String × List String)
  dataset : List Sample
deriving DecidableEq, Repr

/-- `LeakySplitsHashIndex` construction (buckets computed eagerly). -/
def buildHashIndex (hashFn : String → String) (samples : List Sample) : HashIndex :=
  { hash2ids := buildBuckets hashFn samples, dataset := samples }

/-- The loop of the `leaks` property: concatenate, in bucket order, the id
lists of the buckets with more than one member. -/
def leakIds (idx : HashIndex) : List String :=
  idx.hash2ids.foldl (fun acc p => if p.2.length > 1 then acc ++ p.2 else acc) []

/-- `LeakySplitsHashIndex.leaks`: ordered select of the leak ids over the
dataset. -/
def hashLeaks (idx : HashIndex) : List Sample :=
  selectOrdered idx.dataset (leakIds idx)

/-- `LeakySplitIndexInterface.num_leaks = self.leaks.count` for the hash
index. -/
def hashNumLeaks (idx : HashIndex) : Nat :=
  (hashLeaks idx).length

/-- `LeakySplitsHashIndex.leaks_by_sample(sample)`: the argument is either
a sample object or an id string; scan the buckets for the first containing
the id and select its membership (unordered), or return `None`. -/
def leaksBySample (idx : HashIndex) (sample : Sample ⊕ String) :
    Option (List Sample) :=
  let i := match sample with
    | Sum.inl s => s.id
    | Sum.inr str => str
  match idx.hash2ids.find? (fun p => p.2.contains i) with
  | some p => some (selectIds idx.dataset p.2)
  | none => none

/-- All ids stored across the buckets, in bucket-list order. -/
def bucketIds (m : List (String × List String)) : List String :=
  (m.map Prod.snd).flatten

/-! ### Concrete fixtures used by witnesses and counterexamples -/

/-- Identity fingerprint: samples collide exactly when their filepaths are
equal (stands in for `compute_filehash` on byte-identical files). -/
def exHashFn : String → String := fun p => p

def exS1 : Sample := { id := "1", filepath := "a.jpg", tags := ["train"], fields := [] }

def exS2 : Sample := { id := "2", filepath := "b.jpg", tags := ["test"], fields := [] }

def exS3 : Sample := { id := "3", filepath := "a.jpg", tags := ["test"], fields := [] }

def exSamples : List Sample := [exS1, exS2, exS3]

/-- The 6-sample end-to-end scenario of the spec: train split of 4, test
split of 2, one test sample a byte-identical copy of a train sample. -/
def exTrain1 : Sample := { id := "t1", filepath := "im1", tags := ["train"], fields := [] }

def exTrain2 : Sample := { id := "t2", filepath := "im2", tags := ["train"], fields := [] }

def exTrain3 : Sample := { id := "t3", filepath := "im3", tags := ["train"], fields := [] }

def exTrain4 : Sample := { id := "t4", filepath := "im4", tags := ["train"], fields := [] }

def exTest1 : Sample := { id := "e1", filepath := "im5", tags := ["test"], fields := [] }

def exTest2 : Sample := { id := "e2", filepath := "im1", tags := ["test"], fields := [] }

def exSixSamples : List Sample :=
  [exTrain1, exTrain2, exTrain3, exTrain4, exTest1, exTest2]

/-- `LeakySplitsHashIndex.__init__` control flow: split resolution runs
first (its error propagates out of the constructor); only when it
succeeds are the hashes computed and the index produced. -/
def hashIndexInit (hashFn : String → String) (samples : List Sample)
    (split_views : Option (List (List Sample))) (split_field : Option String)
    (split_tags : Option (List String)) :
    Except String (Option (List (List Sample)) × HashIndex) :=
  match toViews samples split_views split_field split_tags with
  | .error e => .error e
  | .ok views => .ok (views, buildHashIndex hashFn samples)

/-! ## Embedding-similarity index (`LeakySplitsSKLIndex`)

The external backend pipeline
(`compute_embeddings` → `add_to_index` → `find_duplicates` →
`duplicates_view`) is abstracted, for a fixed dataset, as a function from
the leak threshold to the resulting duplicates view; `computeCalls`
counts its invocations. -/

structure SKLState where
  leakThreshold : ℚ
  cachedLeaksView : Option (List String)
  computeCalls : Nat
deriving DecidableEq, Repr

/-- The index state right after `__init__` (`_leak_threshold = 1`, no
cached view, backend untouched). -/
def initSKLState : SKLState :=
  { leakThreshold := 1, cachedLeaksView := none, computeCalls := 0 }

/-- Python truthiness of `self._cached_leaks_view`: `None` is falsy and a
view is falsy exactly when it is empty (views are sized containers). -/
def viewTruthy : Option (List String) → Bool
  | none => false
  | some v => !v.isEmpty

/-- `LeakySplitsSKLIndex.leaks`: return the cached view when it is truthy,
otherwise run the backend pipeline at the current threshold, cache and
return its duplicates view. -/
def sklLeaks (backend : ℚ → List String) (st : SKLState) :
    List String × SKLState :=
  if viewTruthy st.cachedLeaksView then (st.cachedLeaksView.getD [], st)
  else
    let v := backend st.leakThreshold
    (v, { st with cachedLeaksView := some v,
                  computeCalls := st.computeCalls + 1 })

/-- `LeakySplitsSKLIndex.set_threshold`. -/
def setThreshold (st : SKLState) (t : ℚ) : SKLState :=
  { st with leakThreshold := t }

/-- A backend whose duplicates view is always empty (a collection with no
near-duplicate pair). -/
def exEmptyBackend : ℚ → List String := fun _ => []

/-- A backend finding no duplicates at the default threshold 1 but a
duplicate pair at looser thresholds. -/
def exThresholdBackend : ℚ → List String :=
  fun t => if t ≤ 1 then [] else ["a", "b"]

/-- A backend with a fixed nonempty duplicates view. -/
def exDupBackend : ℚ → List String := fun _ => ["a", "b"]

/-- An index state holding a nonempty cached leaks view. -/
def exCachedState : SKLState :=
  { leakThreshold := 1, cachedLeaksView := some ["a", "b"], computeCalls := 1 }

/-! ## dHash (`LeakySplitsHashIndex._image_hash`)

Image decoding, grayscale conversion and resizing are external
(`cv2`); the hash is embedded from the resized grayscale pixel matrix
onward. -/

/-- `diff = resized[:, 1:] > resized[:, :-1]`: boolean matrix with
`diff[i][j] = resized[i][j+1] > resized[i][j]`. -/
def dhashDiff (resized : List (List Nat)) : List (List Bool) :=
  resized.map (fun row =>
    (List.range (row.length - 1)).map
      (fun j => decide (row.getD (j + 1) 0 > row.getD j 0)))

/-- `diff.flatten()`: row-major flattening of the comparison matrix (the
"binary string" of the code, kept as bits). -/
def dhashBits (resized : List (List Nat)) : List Bool :=
  (dhashDiff resized).flatten

/-- `int(binary_string, 2)`: most-significant-bit-first binary value. -/
def bitsToNat (bs : List Bool) : Nat :=
  bs.foldl (fun a b => 2 * a + (if b then 1 else 0)) 0

/-- Lowercase hexadecimal digit expansion of a natural number,
most-significant digit first (`"0"` for zero). -/
def natToHexDigits (n : Nat) : List Char :=
  if n = 0 then ['0'] else ((Nat.digits 16 n).map Nat.digitChar).reverse

/-- Python's `f"{n:0{w}x}"`: hexadecimal rendering zero-padded on the left
to a minimum width of `w`. -/
def hexPad (w : Nat) (n : Nat) : String :=
  ⟨List.replicate (w - (natToHexDigits n).length) '0' ++ natToHexDigits n⟩

/-- `_image_hash` from the resized grayscale matrix onward: flatten the
adjacent-pixel comparisons and render them as a hexadecimal string padded
to width `hash_size * hash_size // 4`. -/
def imageHash (resized : List (List Nat)) (hash_size : Nat) : String :=
  hexPad (hash_size * hash_size / 4) (bitsToNat (dhashBits resized))

/-- A concrete 2×3 resized matrix, exercising `imageHash` at
`hash_size = 2`. -/
def exMatrix : List (List Nat) := [[0, 1, 2], [2, 1, 0]]

/-! ## Uniqueness (`_compute_uniqueness`)

The nearest-neighbor engine is external (`sklearn`); the score is
embedded from the `kneighbors` output onward: `dists` is the
`n × (K+1)` matrix whose rows hold the distances of each sample to its
`K+1 = 4` nearest neighbors in the collection, the first column being the
self-distance. -/

/-- `weights = [0.6, 0.3, 0.1]`. -/
def uniquenessWeights : List ℚ := [0.6, 0.3, 0.1]

/-- `np.mean(dists[:, 1:] * weights, axis=1)`: per sample, the mean of the
elementwise product of its three nearest-neighbor distances with the
weights. -/
def sampleDists (dists : List (List ℚ)) : List ℚ :=
  dists.map (fun row => ((row.drop 1).zipWith (· * ·) uniquenessWeights).sum / 3)

/-- `np.max` of a list of rationals (`0` on the empty list, on which numpy
would instead raise; all uses below are on nonempty lists). -/
def sMax (l : List ℚ) : ℚ :=
  match l with
  | [] => 0
  | x :: xs => xs.foldl max x

/-- `sample_dists /= sample_dists.max()`: the normalized uniqueness
scores. -/
def computeUniqueness (dists : List (List ℚ)) : List ℚ :=
  (sampleDists dists).map (fun d => d / sMax (sampleDists dists))

/-- A concrete 2×4 `kneighbors` distance matrix. -/
def exDists : List (List ℚ) := [[0, 1, 1, 1], [0, 2, 2, 2]]

/-! ### Bucket invariants -/

theorem bucketIds_addToBucket (m : List (String × List String)) (h i : String) :
    List.Perm (bucketIds (addToBucket m h i)) (i :: bucketIds m) := by
  induction m with
  | nil => simp [addToBucket, bucketIds]
  | cons p rest ih =>
      obtain ⟨k, ids⟩ := p
      by_cases hk : k = h
      · simp only [addToBucket, if_pos hk, bucketIds, List.map_cons, List.flatten_cons,
          List.append_assoc, List.singleton_append]
        exact List.perm_middle
      · simp only [addToBucket, if_neg hk, bucketIds, List.map_cons, List.flatten_cons]
        exact (ih.append_left ids).trans List.perm_middle

theorem bucketIds_foldl (samples : List Sample) (hashFn : String → String) :
    ∀ m : List (String × List String),
      List.Perm
        (bucketIds (samples.foldl (fun m s => addToBucket m (hashFn s.filepath) s.id) m))
        (bucketIds m ++ samples.map Sample.id) := by
  induction samples with
  | nil => intro m; simp
  | cons s ss ih =>
      intro m
      simp only [List.foldl_cons, List.map_cons]
      refine ((ih _).trans ?_)
      refine ((bucketIds_addToBucket m (hashFn s.filepath) s.id).append_right _).trans ?_
      simp only [List.cons_append]
      exact List.perm_middle.symm

/-- The ids stored in the built buckets are exactly the ids of the
samples, as a multiset. -/
theorem bucketIds_buildBuckets (hashFn : String → String) (samples : List Sample) :
    List.Perm (bucketIds (buildBuckets hashFn samples)) (samples.map Sample.id) := by
  simpa [bucketIds] using bucketIds_foldl samples hashFn []

/-- The `leaks` loop equals the flattening, in bucket order, of the id
lists of the buckets with more than one member. -/
theorem leakIds_eq_flatten (idx : HashIndex) :
    leakIds idx =
      ((idx.hash2ids.filter (fun p => p.2.length > 1)).map Prod.snd).flatten := by
  unfold leakIds
  generalize idx.hash2ids = m
  suffices h : ∀ (m : List (String × List String)) (acc : List String),
      m.foldl (fun acc p => if p.2.length > 1 then acc ++ p.2 else acc) acc =
        acc ++ ((m.filter (fun p => p.2.length > 1)).map Prod.snd).flatten by
    simpa using h m []
  intro m
  induction m with
  | nil => intro acc; simp
  | cons p rest ih =>
      intro acc
      by_cases hp : p.2.length > 1
      · simp [hp, ih, List.filter_cons]
      · simp [hp, ih, List.filter_cons]

/-- An id sitting in a bucket with at most one member never appears among
the leak ids, provided the stored ids are duplicate-free. -/
theorem singleton_bucket_not_leak (idx : HashIndex)
    (hnd : (bucketIds idx.hash2ids).Nodup)
    (p : String × List String) (hp : p ∈ idx.hash2ids)
    (hsmall : p.2.length ≤ 1) (i : String) (hi : i ∈ p.2) :
    i ∉ leakIds idx := by
  intro hleak
  rw [leakIds_eq_flatten] at hleak
  rcases List.mem_flatten.mp hleak with ⟨l, hl, hil⟩
  rcases List.mem_map.mp hl with ⟨q, hq, rfl⟩
  have hqm : q ∈ idx.hash2ids := List.mem_of_mem_filter hq
  have hqbig : q.2.length > 1 := by
    have := List.of_mem_filter hq
    simpa using this
  have hne : p.2 ≠ q.2 := by
    intro hcon
    rw [hcon] at hsmall
    omega
  have hdisj := (List.nodup_flatten.mp hnd).2
  have hdis : p.2.Disjoint q.2 :=
    hdisj.forall (fun _ _ hd => List.Disjoint.symm hd)
      (List.mem_map_of_mem Prod.snd hp) (List.mem_map_of_mem Prod.snd hqm) hne
  exact hdis hi hil

/-- Every leak id is the id of some sample of the indexed collection. -/
theorem leakIds_subset_sampleIds (hashFn : String → String) (samples : List Sample)
    (i : String) (hi : i ∈ leakIds (buildHashIndex hashFn samples)) :
    ∃ s ∈ samples, s.id = i := by
  rw [leakIds_eq_flatten] at hi
  rcases List.mem_flatten.mp hi with ⟨l, hl, hil⟩
  rcases List.mem_map.mp hl with ⟨q, hq, rfl⟩
  have hqm : q ∈ buildBuckets hashFn samples := List.mem_of_mem_filter hq
  have hmem : i ∈ bucketIds (buildBuckets hashFn samples) :=
    List.mem_flatten.mpr ⟨q.2, List.mem_map_of_mem Prod.snd hqm, hil⟩
  have := (bucketIds_buildBuckets hashFn samples).mem_iff.mp hmem
  rcases List.mem_map.mp this with ⟨s, hs, hsi⟩
  exact ⟨s, hs, hsi⟩

/-- When every requested id belongs to some sample of the dataset, the
ordered select materializes exactly the requested ids, in order. -/
theorem selectOrdered_map_id (ds : List Sample) (ids : List String)
    (h : ∀ i ∈ ids, ∃ s ∈ ds, s.id = i) :
    (selectOrdered ds ids).map Sample.id = ids := by
  induction ids with
  | nil => rfl
  | cons i rest ih =>
      have hex : ∃ s ∈ ds, s.id = i := h i (List.mem_cons_self i rest)
      have hsome : (ds.find? (fun s => s.id = i)).isSome := by
        rw [List.find?_isSome]
        rcases hex with ⟨s, hs, hid⟩
        exact ⟨s, hs, by simp [hid]⟩
      rcases Option.isSome_iff_exists.mp hsome with ⟨s, hfind⟩
      have hid : s.id = i := by
        have := List.find?_some hfind
        simpa using this
      simp only [selectOrdered, List.filterMap_cons, hfind]
      have ihr := ih (fun j hj => h j (List.mem_cons_of_mem i hj))
      simp only [selectOrdered] at ihr
      simp [List.map_cons, hid, ihr]

/-- C1: for a hash-bucket index over samples with distinct ids, the
`leaks` property returns exactly the identifiers of the buckets with at
least 2 members, concatenated in bucket order with within-bucket insertion
order preserved, materialized as an ordered view over the original
collection; no identifier from a singleton bucket appears. -/
theorem C1_hash_leaks_exactly_multi_buckets (hashFn : String → String)
    (samples : List Sample) (hnd : (samples.map Sample.id).Nodup) :
    leakIds (buildHashIndex hashFn samples) =
      (((buildHashIndex hashFn samples).hash2ids.filter
          (fun p => p.2.length > 1)).map Prod.snd).flatten ∧
    (hashLeaks (buildHashIndex hashFn samples)).map Sample.id =
      leakIds (buildHashIndex hashFn samples) ∧
    ∀ p ∈ (buildHashIndex hashFn samples).hash2ids, p.2.length ≤ 1 →
      ∀ i ∈ p.2, i ∉ leakIds (buildHashIndex hashFn samples) := by
  refine ⟨leakIds_eq_flatten _, ?_, ?_⟩
  · exact selectOrdered_map_id samples _ (leakIds_subset_sampleIds hashFn samples)
  · intro p hp hsmall i hi
    have hnb : (bucketIds (buildHashIndex hashFn samples).hash2ids).Nodup :=
      (bucketIds_buildBuckets hashFn samples).nodup_iff.mpr hnd
    exact singleton_bucket_not_leak _ hnb p hp hsmall i hi

theorem C1_witness :
    (exSamples.map Sample.id).Nodup ∧
    ((hashLeaks (buildHashIndex exHashFn exSamples)).map Sample.id =
        leakIds (buildHashIndex exHashFn exSamples) ∧
      ∀ p ∈ (buildHashIndex exHashFn exSamples).hash2ids, p.2.length ≤ 1 →
        ∀ i ∈ p.2, i ∉ leakIds (buildHashIndex exHashFn exSamples)) :=
  ⟨by decide,
    (C1_hash_leaks_exactly_multi_buckets exHashFn exSamples (by decide)).2⟩

/-- C2 counterexample: sample `exS2`'s filepath hash collides with no
other sample, so its bucket has exactly one member; the claim says
`leaks_by_sample` then returns no result, but the code scans the buckets,
finds the singleton bucket containing `"2"`, and returns it as a
(nonempty) view holding just that sample. -/
theorem C2_counterexample :
    (∃ p ∈ (buildHashIndex exHashFn exSamples).hash2ids,
        "2" ∈ p.2 ∧ p.2.length = 1) ∧
    leaksBySample (buildHashIndex exHashFn exSamples) (Sum.inr "2") =
      some [exS2] := by
  decide

/-- C2 amended: `leaks_by_sample` returns the full membership of the first
bucket containing the sample's id (including the sample itself) for every
sample of the indexed collection, regardless of the bucket's size — also
for singleton buckets; it returns no result only when the id lies in no
bucket (i.e. the sample is not part of the indexed collection). -/
theorem C2_leaks_by_sample_bucket_membership (hashFn : String → String)
    (samples : List Sample) :
    (∀ s ∈ samples, ∃ b,
        (buildHashIndex hashFn samples).hash2ids.find?
            (fun p => p.2.contains s.id) = some b ∧
        leaksBySample (buildHashIndex hashFn samples) (Sum.inl s) =
          some (selectIds samples b.2) ∧
        s ∈ selectIds samples b.2) ∧
    (∀ i : String, (∀ b ∈ (buildHashIndex hashFn samples).hash2ids, i ∉ b.2) →
        leaksBySample (buildHashIndex hashFn samples) (Sum.inr i) = none) := by
  constructor
  · intro s hs
    have hmem : s.id ∈ bucketIds (buildBuckets hashFn samples) :=
      (bucketIds_buildBuckets hashFn samples).mem_iff.mpr
        (List.mem_map_of_mem Sample.id hs)
    rcases List.mem_flatten.mp hmem with ⟨l, hl, hil⟩
    rcases List.mem_map.mp hl with ⟨q, hq, rfl⟩
    have hsome : ((buildHashIndex hashFn samples).hash2ids.find?
        (fun p => p.2.contains s.id)).isSome := by
      rw [List.find?_isSome]
      exact ⟨q, hq, by simpa using hil⟩
    rcases Option.isSome_iff_exists.mp hsome with ⟨b, hfind⟩
    refine ⟨b, hfind, ?_, ?_⟩
    · simp only [leaksBySample, hfind]
      rfl
    · have hbid : s.id ∈ b.2 := by
        have := List.find?_some hfind
        simpa using this
      exact List.mem_filter.mpr ⟨hs, by simpa using hbid⟩
  · intro i hnone
    have hfind : (buildHashIndex hashFn samples).hash2ids.find?
        (fun p => p.2.contains i) = none := by
      rw [List.find?_eq_none]
      intro p hp
      simpa using hnone p hp
    simp only [leaksBySample, hfind]

theorem C2_witness :
    exS1 ∈ exSamples ∧
    (∃ b, (buildHashIndex exHashFn exSamples).hash2ids.find?
          (fun p => p.2.contains exS1.id) = some b ∧
        leaksBySample (buildHashIndex exHashFn exSamples) (Sum.inl exS1) =
          some (selectIds exSamples b.2) ∧
        exS1 ∈ selectIds exSamples b.2) :=
  ⟨by decide,
    (C2_leaks_by_sample_bucket_membership exHashFn exSamples).1 exS1 (by decide)⟩

/-- C3: `num_leaks` is the count of the view returned by `leaks`: it
equals the number of leak ids (the ordered select resolves every leak id
to a dataset sample), which is the total size of the buckets with at
least 2 members.  On the spec's 6-sample duplicate-pair scenario this
count is 2. -/
theorem C3_num_leaks_counts_leaks (hashFn : String → String)
    (samples : List Sample) :
    hashNumLeaks (buildHashIndex hashFn samples) =
      (hashLeaks (buildHashIndex hashFn samples)).length ∧
    hashNumLeaks (buildHashIndex hashFn samples) =
      (leakIds (buildHashIndex hashFn samples)).length ∧
    hashNumLeaks (buildHashIndex hashFn samples) =
      ((((buildHashIndex hashFn samples).hash2ids.filter
          (fun p => p.2.length > 1)).map Prod.snd).map List.length).sum ∧
    hashNumLeaks (buildHashIndex exHashFn exSixSamples) = 2 := by
  have hmap := selectOrdered_map_id samples _
    (leakIds_subset_sampleIds hashFn samples)
  have hlen : hashNumLeaks (buildHashIndex hashFn samples) =
      (leakIds (buildHashIndex hashFn samples)).length := by
    simpa [hashNumLeaks, hashLeaks] using congrArg List.length hmap
  refine ⟨rfl, hlen, ?_, by decide⟩
  rw [hlen, leakIds_eq_flatten, List.length_flatten]

/-- C9: `leaks_by_sample` accepts a sample object or its id string and
returns the same result for both. -/
theorem C9_leaks_by_sample_accepts_sample_or_id (idx : HashIndex) (s : Sample) :
    leaksBySample idx (Sum.inl s) = leaksBySample idx (Sum.inr s.id) := rfl

/-- C10: an empty split collection counts as provided (`is not None`), so
the missing-argument check passes; every dispatch branch then tests
truthiness, so `_to_views` falls through all branches and returns `None`
rather than raising or producing views — both for `split_views=[]` and
for `split_tags=[]`. -/
theorem C10_empty_split_collection_falls_through (samples : List Sample) :
    numGiven (some ([] : List (List Sample))) (none : Option String)
        (none : Option (List String)) = 1 ∧
    numGiven (none : Option (List (List Sample))) (none : Option String)
        (some ([] : List String)) = 1 ∧
    toViews samples (some []) none none = Except.ok none ∧
    toViews samples none none (some []) = Except.ok none :=
  ⟨rfl, rfl, rfl, rfl⟩

/-- C4 counterexample: `split_tags = []` supplies fewer than 2 tags, yet
split resolution raises nothing — it returns `None` — because the empty
list passes the `is not None` count but fails every truthiness dispatch. -/
theorem C4_counterexample :
    ([] : List String).length < 2 ∧
    toViews exSamples none none (some ([] : List String)) = Except.ok none :=
  ⟨by decide, rfl⟩

/-- C4 amended: split resolution raises (a `ValueError`, the spec's
configuration-error category) exactly when zero of the three split
arguments are non-`None`, more than one is non-`None`, the single
supplied argument is a truthy (nonempty) field name with fewer than 2
distinct values, or a truthy (nonempty) tags list with fewer than 2 tags;
a supplied-but-empty views or tags list (or empty field name) raises
nothing and yields no views.  The error propagates eagerly out of hash
index construction, before any hashing. -/
theorem C4_split_resolution_error_conditions (hashFn : String → String)
    (samples : List Sample) (sv : Option (List (List Sample)))
    (sf : Option String) (st : Option (List String)) :
    ((∃ e, toViews samples sv sf st = Except.error e) ↔
      (numGiven sv sf st = 0 ∨ 1 < numGiven sv sf st ∨
        (numGiven sv sf st = 1 ∧ truthyStr sf = true ∧
          (distinctField samples (sf.getD "")).length < 2) ∨
        (numGiven sv sf st = 1 ∧ truthyList st = true ∧
          (st.getD []).length < 2))) ∧
    (∀ e, toViews samples sv sf st = Except.error e →
      hashIndexInit hashFn samples sv sf st = Except.error e) := by
  constructor
  · rcases sv with _ | vs <;> rcases sf with _ | f <;> rcases st with _ | ts
    · -- nothing given: missing-argument error
      simp [toViews, numGiven]
    · -- only tags
      rcases ts with _ | ⟨t, ts⟩
      · simp [toViews, numGiven, truthyList, truthyStr]
      · by_cases hl : ts.length + 1 < 2 <;>
          simp [toViews, numGiven, truthyList, truthyStr, tagsToViews, hl,
            Except.map]
    · -- only field
      by_cases hf : f.isEmpty
      · simp [toViews, numGiven, truthyList, truthyStr, hf]
      · by_cases hd : (distinctField samples f).length < 2 <;>
          simp [toViews, numGiven, truthyList, truthyStr, hf, fieldToViews,
            hd, Except.map]
    · simp [toViews, numGiven]
    · -- only views
      rcases vs with _ | ⟨v, vs⟩
      · simp [toViews, numGiven, truthyList, truthyStr]
      · simp [toViews, numGiven, truthyList, truthyStr]
    · simp [toViews, numGiven]
    · simp [toViews, numGiven]
    · simp [toViews, numGiven]
  · intro e he
    simp [hashIndexInit, he]

theorem C4_witness :
    (∃ e, toViews exSamples none (some "tags") none = Except.error e) ∧
    (numGiven (none : Option (List (List Sample))) (some "tags")
        (none : Option (List String)) = 1 ∧
      truthyStr (some "tags") = true ∧
      (distinctField exSamples "tags").length < 2) ∧
    hashIndexInit exHashFn exSamples none (some "tags") none =
      Except.error "field has less than 2 distinct values" := by
  have h := C4_split_resolution_error_conditions exHashFn exSamples none
    (some "tags") none
  have hrhs : numGiven (none : Option (List (List Sample))) (some "tags")
        (none : Option (List String)) = 1 ∧
      truthyStr (some "tags") = true ∧
      (distinctField exSamples "tags").length < 2 := by decide
  have herr : ∃ e, toViews exSamples none (some "tags") none = Except.error e :=
    h.1.mpr (Or.inr (Or.inr (Or.inl hrhs)))
  refine ⟨herr, hrhs, ?_⟩
  exact h.2 "field has less than 2 distinct values" rfl

/-- C6 counterexample: with a backend whose duplicates view is empty, the
`if self._cached_leaks_view:` truthiness check is falsy on the cached
empty view, so a second `leaks` access re-runs the whole pipeline: after
two accesses the backend has been invoked twice, not at most once. -/
theorem C6_counterexample :
    (sklLeaks exEmptyBackend initSKLState).2.cachedLeaksView = some [] ∧
    (sklLeaks exEmptyBackend
        (sklLeaks exEmptyBackend initSKLState).2).2.computeCalls = 2 ∧
    ¬(sklLeaks exEmptyBackend
        (sklLeaks exEmptyBackend initSKLState).2).2.computeCalls ≤ 1 := by
  refine ⟨rfl, rfl, by decide⟩

/-- C6 amended: starting from an uncached index, the first `leaks` access
runs the backend pipeline once and caches its view; whenever that view is
nonempty, a second access returns the same view with the state (and hence
the backend invocation count) unchanged.  (When the computed view is
empty, Python truthiness of the cache is falsy and every access re-runs
the pipeline.) -/
theorem C6_leaks_cached_when_nonempty (backend : ℚ → List String)
    (st : SKLState) (hc : st.cachedLeaksView = none)
    (hne : backend st.leakThreshold ≠ []) :
    (sklLeaks backend st).1 = backend st.leakThreshold ∧
    (sklLeaks backend st).2.computeCalls = st.computeCalls + 1 ∧
    sklLeaks backend (sklLeaks backend st).2 =
      ((sklLeaks backend st).1, (sklLeaks backend st).2) := by
  have h1 : sklLeaks backend st =
      (backend st.leakThreshold,
        { st with cachedLeaksView := some (backend st.leakThreshold),
                  computeCalls := st.computeCalls + 1 }) := by
    simp [sklLeaks, hc, viewTruthy]
  refine ⟨by rw [h1], by rw [h1], ?_⟩
  rw [h1]
  simp [sklLeaks, viewTruthy, hne]

theorem C6_witness :
    initSKLState.cachedLeaksView = none ∧
    exDupBackend initSKLState.leakThreshold ≠ [] ∧
    sklLeaks exDupBackend (sklLeaks exDupBackend initSKLState).2 =
      ((sklLeaks exDupBackend initSKLState).1,
        (sklLeaks exDupBackend initSKLState).2) :=
  ⟨rfl, by decide,
    (C6_leaks_cached_when_nonempty exDupBackend initSKLState rfl (by decide)).2.2⟩

/-- C7 counterexample: after `leaks` has been computed and cached as the
empty view (threshold 1 finds no duplicates), `set_threshold(2)` leaves
the cache in place, yet the next `leaks` access returns a different view:
the falsy empty cache makes the access re-run the pipeline at the new
threshold, so the value of subsequent accesses does change. -/
theorem C7_counterexample :
    (sklLeaks exThresholdBackend initSKLState).1 = [] ∧
    (setThreshold (sklLeaks exThresholdBackend initSKLState).2
        2).cachedLeaksView = some [] ∧
    (sklLeaks exThresholdBackend
        (setThreshold (sklLeaks exThresholdBackend initSKLState).2 2)).1 =
      ["a", "b"] := by
  refine ⟨by decide, by decide, by decide⟩

/-- C7 amended: `set_threshold` changes only the `_leak_threshold` field,
leaving the cached view and invocation count intact; when the cached view
is nonempty, subsequent `leaks` accesses still return it unchanged for
any backend and any new threshold.  (When the cached view is empty, the
next access recomputes at the new threshold.) -/
theorem C7_set_threshold_frame (st : SKLState) (t : ℚ) :
    (setThreshold st t).leakThreshold = t ∧
    (setThreshold st t).cachedLeaksView = st.cachedLeaksView ∧
    (setThreshold st t).computeCalls = st.computeCalls ∧
    (∀ (backend : ℚ → List String) (v : List String),
      st.cachedLeaksView = some v → v ≠ [] →
        sklLeaks backend (setThreshold st t) = (v, setThreshold st t) ∧
        (sklLeaks backend (setThreshold st t)).1 = (sklLeaks backend st).1) := by
  refine ⟨rfl, rfl, rfl, ?_⟩
  intro backend v hc hne
  have hfst : sklLeaks backend (setThreshold st t) = (v, setThreshold st t) := by
    simp [sklLeaks, setThreshold, viewTruthy, hc, hne]
  refine ⟨hfst, ?_⟩
  rw [hfst]
  simp [sklLeaks, viewTruthy, hc, hne]

theorem C7_witness :
    exCachedState.cachedLeaksView = some ["a", "b"] ∧
    (["a", "b"] : List String) ≠ [] ∧
    sklLeaks exEmptyBackend (setThreshold exCachedState 5) =
      (["a", "b"], setThreshold exCachedState 5) ∧
    (sklLeaks exEmptyBackend (setThreshold exCachedState 5)).1 =
      (sklLeaks exEmptyBackend exCachedState).1 :=
  ⟨rfl, by decide,
    (C7_set_threshold_frame exCachedState 5).2.2.2 exEmptyBackend
      ["a", "b"] rfl (by decide)⟩

/-! ### dHash lemmas -/

theorem bitsToNat_foldl_lt (bs : List Bool) :
    ∀ a : Nat, bs.foldl (fun a b => 2 * a + (if b then 1 else 0)) a <
      (a + 1) * 2 ^ bs.length := by
  induction bs with
  | nil => intro a; simp
  | cons b bs ih =>
      intro a
      simp only [List.foldl_cons, List.length_cons]
      calc bs.foldl (fun a b => 2 * a + (if b then 1 else 0))
            (2 * a + (if b then 1 else 0))
          < (2 * a + (if b then 1 else 0) + 1) * 2 ^ bs.length := ih _
        _ ≤ (a + 1) * 2 ^ (bs.length + 1) := by
            have hb : (if b then 1 else 0) ≤ 1 := by split <;> omega
            rw [pow_succ]
            nlinarith [Nat.pos_pow_of_pos bs.length (by omega : 0 < 2)]

theorem bitsToNat_lt (bs : List Bool) : bitsToNat bs < 2 ^ bs.length := by
  simpa using bitsToNat_foldl_lt bs 0

theorem dhashDiff_row_lengths (resized : List (List Nat)) (h : Nat)
    (hcols : ∀ row ∈ resized, row.length = h + 1) :
    ∀ l ∈ dhashDiff resized, l.length = h := by
  intro l hl
  rcases List.mem_map.mp hl with ⟨row, hrow, rfl⟩
  simp [hcols row hrow]

theorem sum_map_length_const {α : Type} (L : List (List α)) (h : Nat)
    (hL : ∀ l ∈ L, l.length = h) :
    (L.map List.length).sum = L.length * h := by
  induction L with
  | nil => simp
  | cons l L ih =>
      simp only [List.map_cons, List.sum_cons, List.length_cons]
      rw [hL l (List.mem_cons_self l L),
        ih (fun l' hl' => hL l' (List.mem_cons_of_mem l hl'))]
      ring

theorem dhashBits_length (resized : List (List Nat)) (h : Nat)
    (hcols : ∀ row ∈ resized, row.length = h + 1) :
    (dhashBits resized).length = resized.length * h := by
  rw [dhashBits, List.length_flatten,
    sum_map_length_const _ h (dhashDiff_row_lengths resized h hcols)]
  simp [dhashDiff]

theorem flatten_getD_const {α : Type} (d : α) (h : Nat) :
    ∀ (L : List (List α)) (i j : Nat), (∀ l ∈ L, l.length = h) →
      i < L.length → j < h →
      L.flatten.getD (i * h + j) d = (L.getD i []).getD j d := by
  intro L
  induction L with
  | nil => intro i j _ hi _; simp at hi
  | cons l L ih =>
      intro i j hL hi hj
      match i with
      | 0 =>
          have hlen : l.length = h := hL l (List.mem_cons_self l L)
          simp only [List.flatten_cons, Nat.zero_mul, Nat.zero_add, List.getD,
            List.get?_eq_getElem?]
          rw [List.getElem?_append_left (by omega : j < l.length)]
          simp
      | i + 1 =>
          have hlen : l.length = h := hL l (List.mem_cons_self l L)
          have hidx : (i + 1) * h + j = l.length + (i * h + j) := by
            rw [hlen]; ring
          simp only [List.flatten_cons, List.getD, List.get?_eq_getElem?, hidx]
          rw [List.getElem?_append_right (by omega : l.length ≤ l.length + (i * h + j)),
            Nat.add_sub_cancel_left]
          have := ih i j (fun l' hl' => hL l' (List.mem_cons_of_mem l hl'))
            (by simpa using hi) hj
          simpa [List.getD, List.get?_eq_getElem?] using this

theorem natToHexDigits_length_le (n w : Nat) (hw : 1 ≤ w) (hn : n < 16 ^ w) :
    (natToHexDigits n).length ≤ w := by
  by_cases h0 : n = 0
  · simp [natToHexDigits, h0, hw]
  · have hlog : Nat.log 16 n < w := Nat.log_lt_of_lt_pow h0 hn
    have hlen : (Nat.digits 16 n).length = Nat.log 16 n + 1 :=
      Nat.digits_len 16 n (by norm_num) h0
    simp [natToHexDigits, h0, hlen]
    omega

theorem hexPad_length (n w : Nat) (hw : 1 ≤ w) (hn : n < 16 ^ w) :
    (hexPad w n).length = w := by
  have hle := natToHexDigits_length_le n w hw hn
  simp only [hexPad, String.length]
  simp
  omega

/-- C5: on a grayscale matrix of shape `h × (h+1)` (as the resize step
produces; `h` the positive, even hash size, 24 by default), `_image_hash`
flattens row-major the horizontal adjacent-pixel comparisons
`pixel[i][j+1] > pixel[i][j]` — bit `i*h + j` of the binary string is that
comparison — and renders them as a hexadecimal string of length exactly
`h*h/4` (144 for `h = 24`). -/
theorem C5_image_hash_shape (h : Nat) (resized : List (List Nat))
    (hrows : resized.length = h)
    (hcols : ∀ row ∈ resized, row.length = h + 1)
    (hpos : 0 < h) (heven : h % 2 = 0) :
    (imageHash resized h).length = h * h / 4 ∧
    (dhashBits resized).length = h * h ∧
    ∀ i j, i < h → j < h →
      (dhashBits resized).getD (i * h + j) false =
        decide ((resized.getD i []).getD (j + 1) 0 >
          (resized.getD i []).getD j 0) := by
  have hbl : (dhashBits resized).length = h * h := by
    rw [dhashBits_length resized h hcols, hrows]
  have hdvd : 4 ∣ h * h := by
    obtain ⟨k, hk⟩ := Nat.dvd_of_mod_eq_zero heven
    exact ⟨k * k, by rw [hk]; ring⟩
  refine ⟨?_, hbl, ?_⟩
  · have hw : 1 ≤ h * h / 4 := by
      obtain ⟨m, hm⟩ := hdvd
      have : 1 ≤ m := by nlinarith
      omega
    have hlt : bitsToNat (dhashBits resized) < 16 ^ (h * h / 4) := by
      have h1 := bitsToNat_lt (dhashBits resized)
      rw [hbl] at h1
      have h16 : (16 : Nat) ^ (h * h / 4) = 2 ^ (h * h) := by
        have : (16 : Nat) = 2 ^ 4 := by norm_num
        rw [this, ← pow_mul, Nat.mul_div_cancel' hdvd]
      rw [h16]
      exact h1
    exact hexPad_length _ _ hw hlt
  · intro i j hi hj
    have hrl := dhashDiff_row_lengths resized h hcols
    have hdl : i < (dhashDiff resized).length := by
      simpa [dhashDiff, hrows] using hi
    rw [dhashBits, flatten_getD_const false h (dhashDiff resized) i j hrl hdl hj]
    have hi' : i < resized.length := by rw [hrows]; exact hi
    have hr : resized[i]? = some resized[i] := List.getElem?_eq_getElem hi'
    have hrowlen : resized[i].length = h + 1 :=
      hcols _ (List.getElem_mem hi')
    have hgd : resized.getD i [] = resized[i] := by
      simp [List.getD, hr]
    have hdget : (dhashDiff resized).getD i [] =
        (List.range h).map
          (fun j => decide (resized[i].getD (j + 1) 0 > resized[i].getD j 0)) := by
      simp only [dhashDiff, List.getD, List.get?_eq_getElem?, List.getElem?_map, hr]
      simp [hrowlen]
    rw [hdget, hgd]
    simp [List.getD, List.get?_eq_getElem?, List.getElem?_map, List.getElem?_range hj]

theorem C5_witness :
    exMatrix.length = 2 ∧ (∀ row ∈ exMatrix, row.length = 2 + 1) ∧
    0 < 2 ∧ 2 % 2 = 0 ∧
    ((imageHash exMatrix 2).length = 2 * 2 / 4 ∧
      (dhashBits exMatrix).length = 2 * 2 ∧
      ∀ i j, i < 2 → j < 2 →
        (dhashBits exMatrix).getD (i * 2 + j) false =
          decide ((exMatrix.getD i []).getD (j + 1) 0 >
            (exMatrix.getD i []).getD j 0)) :=
  ⟨by decide, by decide, by decide, by decide,
    C5_image_hash_shape 2 exMatrix (by decide) (by decide) (by decide)
      (by decide)⟩

/-! ### Uniqueness lemmas -/

theorem foldl_max_mem (xs : List ℚ) : ∀ x : ℚ, xs.foldl max x ∈ x :: xs := by
  induction xs with
  | nil => intro x; simp
  | cons y ys ih =>
      intro x
      simp only [List.foldl_cons]
      have h := ih (max x y)
      rcases List.mem_cons.mp h with h' | h'
      · rw [h']
        rcases max_choice x y with hm | hm <;> rw [hm] <;> simp
      · simp [List.mem_cons.mpr (Or.inr h')]

theorem le_foldl_max (xs : List ℚ) :
    ∀ x : ℚ, x ≤ xs.foldl max x ∧ ∀ a ∈ xs, a ≤ xs.foldl max x := by
  induction xs with
  | nil => intro x; simp
  | cons y ys ih =>
      intro x
      obtain ⟨h1, h2⟩ := ih (max x y)
      refine ⟨le_trans (le_max_left x y) h1, ?_⟩
      intro a ha
      rcases List.mem_cons.mp ha with rfl | ha'
      · exact le_trans (le_max_right x a) h1
      · exact h2 a ha'

theorem sMax_mem (l : List ℚ) (h : l ≠ []) : sMax l ∈ l := by
  match l with
  | x :: xs => exact foldl_max_mem xs x

theorem le_sMax (l : List ℚ) (a : ℚ) (ha : a ∈ l) : a ≤ sMax l := by
  match l with
  | x :: xs =>
      rcases List.mem_cons.mp ha with rfl | ha'
      · exact (le_foldl_max xs a).1
      · exact (le_foldl_max xs x).2 a ha'

theorem zipWith_mul_sum_nonneg :
    ∀ (l w : List ℚ), (∀ a ∈ l, 0 ≤ a) → (∀ b ∈ w, 0 ≤ b) →
      0 ≤ (l.zipWith (· * ·) w).sum := by
  intro l
  induction l with
  | nil => intro w _ _; simp
  | cons a l ih =>
      intro w hl hw
      match w with
      | [] => simp
      | b :: w =>
          simp only [List.zipWith_cons_cons, List.sum_cons]
          have ha : 0 ≤ a := hl a (List.mem_cons_self a l)
          have hb : 0 ≤ b := hw b (List.mem_cons_self b w)
          have hrec := ih w (fun x hx => hl x (List.mem_cons_of_mem a hx))
            (fun y hy => hw y (List.mem_cons_of_mem b hy))
          positivity

theorem getD_map_lt {α β : Type} (f : α → β) (L : List α) (i : Nat)
    (hi : i < L.length) (d : β) (d' : α) :
    (L.map f).getD i d = f (L.getD i d') := by
  have hr : L[i]? = some L[i] := List.getElem?_eq_getElem hi
  simp [List.getD, List.get?_eq_getElem?, List.getElem?_map, hr]

theorem sampleDists_nonneg (dists : List (List ℚ))
    (hnn : ∀ row ∈ dists, ∀ x ∈ row, 0 ≤ x) :
    ∀ s ∈ sampleDists dists, 0 ≤ s := by
  intro s hs
  rcases List.mem_map.mp hs with ⟨row, hrow, rfl⟩
  have hsum : 0 ≤ ((row.drop 1).zipWith (· * ·) uniquenessWeights).sum := by
    refine zipWith_mul_sum_nonneg _ _ ?_ ?_
    · intro a ha
      exact hnn row hrow a (List.mem_of_mem_drop ha)
    · intro b hb
      simp only [uniquenessWeights, List.mem_cons, List.not_mem_nil, or_false]
        at hb
      rcases hb with rfl | rfl | rfl <;> norm_num
  positivity

/-- C8: with the distance rows delivered by the external nearest-neighbor
engine (one row per sample, self-distance first, all distances
nonnegative) and a positive maximum score, each uniqueness score is the
mean of the sample's 3 nearest-neighbor distances weighted elementwise by
`[0.6, 0.3, 0.1]`, divided by the maximum score; every score lies in
`[0, 1]` and the maximizing sample scores exactly 1. -/
theorem C8_uniqueness_weighted_knn (dists : List (List ℚ))
    (hne : dists ≠ [])
    (hlen : ∀ row ∈ dists, row.length = 4)
    (hnn : ∀ row ∈ dists, ∀ x ∈ row, 0 ≤ x)
    (hpos : 0 < sMax (sampleDists dists)) :
    (∀ i, i < dists.length →
      (computeUniqueness dists).getD i 0 =
        (((dists.getD i []).getD 1 0 * (0.6 : ℚ) +
            (dists.getD i []).getD 2 0 * (0.3 : ℚ) +
            (dists.getD i []).getD 3 0 * (0.1 : ℚ)) / 3) /
          sMax (sampleDists dists)) ∧
    (∀ u ∈ computeUniqueness dists, 0 ≤ u ∧ u ≤ 1) ∧
    (∃ u ∈ computeUniqueness dists, u = 1) := by
  refine ⟨?_, ?_, ?_⟩
  · intro i hi
    have hsd : i < (sampleDists dists).length := by
      simpa [sampleDists] using hi
    rw [computeUniqueness]
    rw [getD_map_lt _ _ i hsd 0 0]
    rw [sampleDists, getD_map_lt _ _ i hi 0 []]
    have hrow : dists.getD i [] ∈ dists := by
      have hr : dists[i]? = some dists[i] := List.getElem?_eq_getElem hi
      have : dists.getD i [] = dists[i] := by
        simp [List.getD, List.get?_eq_getElem?, hr]
      rw [this]
      exact List.getElem_mem hi
    have h4 : (dists.getD i []).length = 4 := hlen _ hrow
    obtain ⟨a, b, c, d, hrow4⟩ :
        ∃ a b c d, dists.getD i [] = [a, b, c, d] := by
      match hm : dists.getD i [], h4 with
      | [a, b, c, d], _ => exact ⟨a, b, c, d, rfl⟩
    rw [hrow4]
    simp [uniquenessWeights, List.getD]
    ring_nf
  · intro u hu
    rcases List.mem_map.mp hu with ⟨s, hs, rfl⟩
    have h0 : 0 ≤ s := sampleDists_nonneg dists hnn s hs
    have hle : s ≤ sMax (sampleDists dists) := le_sMax _ s hs
    exact ⟨div_nonneg h0 (le_of_lt hpos), (div_le_one hpos).mpr hle⟩
  · have hne' : sampleDists dists ≠ [] := by
      intro hcon
      exact hne (by simpa [sampleDists] using hcon)
    refine ⟨sMax (sampleDists dists) / sMax (sampleDists dists),
      List.mem_map_of_mem _ (sMax_mem _ hne'), ?_⟩
    exact div_self (ne_of_gt hpos)

theorem C8_witness :
    exDists ≠ [] ∧ (∀ row ∈ exDists, row.length = 4) ∧
    (∀ row ∈ exDists, ∀ x ∈ row, 0 ≤ x) ∧
    0 < sMax (sampleDists exDists) ∧
    ((∀ u ∈ computeUniqueness exDists, 0 ≤ u ∧ u ≤ 1) ∧
      (∃ u ∈ computeUniqueness exDists, u = 1)) :=
  ⟨by decide, by decide, by decide,
    by norm_num [sMax, sampleDists, exDists, uniquenessWeights, max_def],
    (C8_uniqueness_weighted_knn exDists (by decide) (by decide) (by decide)
      (by norm_num [sMax, sampleDists, exDists, uniquenessWeights, max_def])).2⟩

end FiftyoneBrain
